import Mathlib

/-!
Verification of the ballot-tabulation engine in `questions.py`.

The embedding mirrors the Python source closely:

* `Votes` embeds `Votes(v) = list(enumerate(v))`: ballots paired with their
  identifiers `0, 1, 2, ...`.
* A `Table` embeds the Python dict `sum` mapping a choice to its per-position
  count vector.  Python dict update semantics (`sum[choice] = ...` inserting a
  fresh key at the end, updating an existing key in place) are embedded by an
  insertion-ordered association list.
* `countVoteAux` embeds the inner loop
  `for i, choice in enumerate(vote): ... sum[choice][i] += 1`, including the
  `IndexError` raised when `i` reaches the length of the count vector
  (`[0]*len(self.options)`).  On error it returns the partially updated
  working table, which is needed to state what the committed state looks
  like after a mid-ballot crash (see `countLoopA`).
* `removeIgnored` embeds `for i in toignore: if i in vote: vote.remove(i)`:
  the first occurrence of each ignored choice is removed from the ballot.
* `countLoopA` embeds the `for voteid, vote in votes[offset+1:]` loop of
  `ListQuestion.CountContinue`.  Its first component is the list of scanned
  ballots as they are left after the call: `vote.remove` mutates the caller's
  ballot in place, so every scanned ballot comes back stripped.  Crucially,
  `self.state.sum = copy.copy(sum)` takes a SHALLOW copy: the committed dict
  shares its count-vector list objects with the working dict, so
  `sum[choice][i] += 1` on a choice that is already committed is visible
  through `self.state.sum` as well.  Hence, when a crash happens in the
  middle of a ballot, the table retrievable from the saved state is the
  partially updated working table restricted to the keys that were present
  at the last ballot commit.  This is exactly what the `.error` branch
  returns.
-/

set_option maxHeartbeats 1000000

namespace VoteForIt

variable {α : Type} [DecidableEq α]

/-- Count table: embeds the dict `{choice: [n_first, n_second, ...]}` as an
insertion-ordered association list. -/
abbrev Table (α : Type) := List (α × List Nat)

/-- Membership test for a key, embedding `choice in sum`. -/
def tableMem (t : Table α) (c : α) : Bool :=
  t.any (fun p => decide (p.1 = c))

/-- Lookup, embedding `sum[choice]` (read). -/
def tableGet (t : Table α) (c : α) : Option (List Nat) :=
  (t.find? (fun p => decide (p.1 = c))).map Prod.snd

/-- Update/insert, embedding `sum[choice] = v`: an existing key is updated in
place, a new key is appended at the end. -/
def tableSet : Table α → α → List Nat → Table α
  | [], c, v => [(c, v)]
  | p :: ps, c, v => if p.1 = c then (c, v) :: ps else p :: tableSet ps c v

/-- Embeds the removal loop `for i in toignore: if i in vote: vote.remove(i)`
of `ListQuestion.CountContinue` (lines 114-117): the first occurrence of each
ignored choice is removed from the ballot, in order. -/
def removeIgnored (toignore : List α) (v : List α) : List α :=
  toignore.foldl (fun w i => if i ∈ w then w.erase i else w) v

/-- Embeds the counting loop over one (already stripped) ballot:
`for i, choice in enumerate(vote): if choice not in sum: sum[choice] = [0]*len(self.options); sum[choice][i] += 1`.
Returns `.error t` with the partially updated working table `t` when the
increment raises `IndexError` (the position `i` is out of range of the
length-`nopts` count vector). -/
def countVoteAux (nopts : Nat) : Table α → List α → Nat → Except (Table α) (Table α)
  | t, [], _ => .ok t
  | t, c :: rest, i =>
    let t1 := if tableMem t c then t else tableSet t c (List.replicate nopts 0)
    let vec := (tableGet t1 c).getD []
    if i < vec.length then
      countVoteAux nopts (tableSet t1 c (vec.set i (vec.getD i 0 + 1))) rest (i + 1)
    else
      .error t1

/-- The state retrievable from `self.state` after an unrecoverable error
inside `CountContinue`: the last committed vote id and the table read through
`self.state.sum`. -/
structure CrashInfo (α : Type) where
  voteid : Int
  table : Table α
deriving DecidableEq, Repr

/-- Embeds the ballot loop of `ListQuestion.CountContinue` (lines 113-127),
given the view `votes[offset+1:]` as its list argument.

First component: the scanned ballots as `vote.remove` leaves them (each
scanned ballot stripped of its ignored choices, unscanned ballots untouched).

Second component: the result.  On success, the final working table together
with the last committed vote id.  On a mid-ballot error, the crash state: the
vote id committed at the last ballot boundary, and the table visible through
the shallow-copied `self.state.sum`, i.e. the live (partially incremented)
count vectors restricted to the keys committed at that boundary. -/
def countLoopA (nopts : Nat) (toignore : List α) :
    Int → Table α → List (Nat × List α) →
    List (Nat × List α) × Except (CrashInfo α) (Table α × Int)
  | vid, com, [] => ([], .ok (com, vid))
  | vid, com, (id, v) :: rest =>
    let w := removeIgnored toignore v
    match countVoteAux nopts com w 0 with
    | .ok t =>
      let r := countLoopA nopts toignore id t rest
      ((id, w) :: r.1, r.2)
    | .error part =>
      ((id, w) :: rest, .error ⟨vid, part.filter (fun p => tableMem com p.1)⟩)

/-- Embeds `ListQuestion.State`: `voteid`, `sum`, `toignore`. -/
structure CState (α : Type) where
  voteid : Int
  sum : Table α
  toignore : List α
deriving DecidableEq, Repr

/-- Embeds `ListQuestion.CountSetup`: `voteid = -1`, `sum = {}`,
`toignore = toignore`. -/
def CountSetup (toignore : List α) : CState α :=
  ⟨-1, [], toignore⟩

/-- One run of the `CountContinue` loop from a given state: the slice
`votes[offset+1:]` is taken positionally, as in the source. -/
def CountRun (options : List α) (st : CState α) (votes : List (Nat × List α)) :
    List (Nat × List α) × Except (CrashInfo α) (Table α × Int) :=
  countLoopA options.length st.toignore st.voteid st.sum
    (votes.drop (st.voteid + 1).toNat)

/-- Embeds `ListQuestion.CountContinue`: returns the summed table together
with the updated state, or the crash state on an unrecoverable error. -/
def CountContinue (options : List α) (st : CState α) (votes : List (Nat × List α)) :
    Except (CrashInfo α) (Table α × CState α) :=
  match (CountRun options st votes).2 with
  | .ok (t, vid) => .ok (t, ⟨vid, t, st.toignore⟩)
  | .error c => .error c

/-- Embeds `ListQuestion.Count`: `CountSetup` followed by `CountContinue`. -/
def Count (options : List α) (votes : List (Nat × List α)) (toignore : List α) :
    Except (CrashInfo α) (Table α × CState α) :=
  CountContinue options (CountSetup toignore) votes

/-- The caller-owned ballot list as a full `Count` pass leaves it (the engine
mutates ballots in place via `vote.remove`). -/
def CountBallots (options : List α) (votes : List (Nat × List α)) (toignore : List α) :
    List (Nat × List α) :=
  (CountRun options (CountSetup toignore) votes).1

/-- Embeds `Votes(v) = list(enumerate(v))`, generalized over the start
index. -/
def enumVotes (j : Nat) : List (List α) → List (Nat × List α)
  | [] => []
  | v :: vs => (j, v) :: enumVotes (j + 1) vs

/-- Embeds `Votes(v) = list(enumerate(v))`. -/
def Votes (v : List (List α)) : List (Nat × List α) :=
  enumVotes 0 v

/-- Embeds Python list comparison `key(x) < key(y)` on count vectors
(lexicographic). -/
def pyListLt : List Nat → List Nat → Bool
  | _, [] => false
  | [], _ :: _ => true
  | a :: u, b :: v => if a < b then true else if b < a then false else pyListLt u v

/-- Stable insertion into an ascending run, placing the new entry after all
entries whose vector is not greater (as Python's stable `list.sort` does for
later elements). -/
def insertRanked (p : α × List Nat) : List (α × List Nat) → List (α × List Nat)
  | [] => [p]
  | q :: qs => if pyListLt p.2 q.2 then p :: q :: qs else q :: insertRanked p qs

/-- Embeds `choices.sort(key=operator.itemgetter(1))`: stable ascending sort
of the table items by count vector. -/
def sortByVec (t : Table α) : List (α × List Nat) :=
  t.foldl (fun acc p => insertRanked p acc) []

/-- Errors surfacing from the voting rules: a crash inside counting (with the
retrievable state attached), or an `IndexError` from indexing an empty result
sequence (`choices[0]` on an empty list, `zip(*[])[0]`). -/
inductive PyErr (α : Type) where
  | crash (c : CrashInfo α)
  | indexError
deriving DecidableEq, Repr

/-- Embeds `Plurality.CalculateContinue`:
`choices = self.CountContinue(votes).items(); choices.sort(key=itemgetter(1)); return [choices[0]]`.
Note that the source returns a one-element list containing the full
`(choice, countVector)` pair at the FRONT of the ascending sort. -/
def Plurality.CalculateContinue (options : List α) (st : CState α)
    (votes : List (Nat × List α)) : Except (PyErr α) (List (α × List Nat)) :=
  match CountContinue options st votes with
  | .error c => .error (.crash c)
  | .ok (sum, _) =>
    match sortByVec sum with
    | [] => .error .indexError
    | x :: _ => .ok [x]

/-- Embeds `Plurality.Calculate`: `self.CountSetup(votes); self.CalculateContinue(votes)`.
The source has no `return` statement, so on success the method returns
`None`, embedded as `Unit`. -/
def Plurality.Calculate (options : List α) (votes : List (Nat × List α)) :
    Except (PyErr α) Unit :=
  match Plurality.CalculateContinue options (CountSetup []) votes with
  | .error e => .error e
  | .ok _ => .ok ()

/-- Total length of all ballots; the fuel bound for the IRV loop. -/
def totalLen (votes : List (List α)) : Nat :=
  (votes.map List.length).sum

/-- Embeds the `while True` loop of `InstantRunOff.CalculateContinue`, with
explicit fuel for the recursion (the loop itself, line 224, has no bound in
the source; sufficiency of the fuel used by `InstantRunOff.Calculate` is
proved separately).  Each round counts the current (already mutated) ballots
with the current ignore-set; on a non-terminal round the ballots keep their
in-place `vote.remove` mutations and the lowest-ranked choice is appended to
`alreadylost`.  `zip(*winners)[0]` on an empty `winners` raises `IndexError`,
embedded by the `.indexError` branch. -/
def calcLoopF (nopts winners : Nat) :
    Nat → List (List α) → List α → Option (Except (PyErr α) (List α))
  | 0, _, _ => none
  | fuel + 1, votes, toignore =>
    match (countLoopA nopts toignore (-1) [] (enumVotes 0 votes)).2 with
    | .error c => some (.error (.crash c))
    | .ok (sum, _) =>
      let ranked := sortByVec sum
      if ranked.length ≤ winners then
        match ranked with
        | [] => some (.error .indexError)
        | _ :: _ => some (.ok ((ranked.map Prod.fst).reverse))
      else
        match ranked with
        | [] => some (.error .indexError)
        | c :: _ =>
          calcLoopF nopts winners fuel (votes.map (removeIgnored toignore))
            (toignore ++ [c.1])

/-- Embeds `InstantRunOff.Calculate`: `CalculateSetup` (`alreadylost = []`,
`CountSetup`) followed by `CalculateContinue`.  The fuel `totalLen votes + 1`
is shown sufficient in the termination theorem. -/
def InstantRunOff.Calculate (options : List α) (winners : Nat)
    (votes : List (List α)) : Option (Except (PyErr α) (List α)) :=
  calcLoopF options.length winners (totalLen votes + 1) votes []

/-- The successive values of `self.state.alreadylost` (the ignore-set) at the
start of each round of `InstantRunOff.CalculateContinue`, in order; the same
recursion as `calcLoopF`. -/
def calcRoundsF (nopts winners : Nat) :
    Nat → List (List α) → List α → List (List α)
  | 0, _, toignore => [toignore]
  | fuel + 1, votes, toignore =>
    match (countLoopA nopts toignore (-1) [] (enumVotes 0 votes)).2 with
    | .error _ => [toignore]
    | .ok (sum, _) =>
      let ranked := sortByVec sum
      if ranked.length ≤ winners then [toignore]
      else
        match ranked with
        | [] => [toignore]
        | c :: _ =>
          toignore :: calcRoundsF nopts winners fuel
            (votes.map (removeIgnored toignore)) (toignore ++ [c.1])

/-- The error raised by `Question.Calculate`: `raise NotImplemented()`
(in Python 2 this raises a `TypeError` because `NotImplemented` is not
callable; either way the call fails unconditionally). -/
inductive CalcError where
  | raisedNotImplemented
deriving DecidableEq, Repr

/-- Embeds `Question.Calculate` (lines 46-58): unconditionally raises. -/
def Question.Calculate (votes : List (Nat × List α)) :
    Except CalcError (List α) :=
  .error .raisedNotImplemented

/-- Embeds `Positional.Calculate`: the class body is `pass`, so the method is
inherited unchanged from `Question`. -/
def Positional.Calculate (votes : List (Nat × List α)) :
    Except CalcError (List α) :=
  Question.Calculate votes

/-- Choice names used in the concrete examples from the source's tests. -/
def tom : String := "Tom"

/-- Choice name from the examples. -/
def dick : String := "Dick"

/-- Choice name from the examples. -/
def harry : String := "Harry"

/-- Choice name for small counterexamples. -/
def ca : String := "A"

/-- Choice name for small counterexamples. -/
def cb : String := "B"

/-! ## Claim theorems: closed evaluations -/

/-- C1: the crash-safety claim fails on the code.  With `options = ["A"]` and
ballots `[["A"], ["A","B"]]`, processing ballot 1 raises `IndexError` at
position 1 (the count vectors have length 1).  Because
`self.state.sum = copy.copy(sum)` is a shallow copy, the increment of `"A"`'s
shared count vector during the failed ballot leaks into the committed state:
the saved table is `{"A": [2]}` while `CountFull` on the first `0+1` ballots
yields `{"A": [1]}`. -/
theorem c1_crash_state_corrupted :
    Count [ca] (Votes [[ca], [ca, cb]]) [] = .error ⟨0, [(ca, [2])]⟩ ∧
    Count [ca] (Votes [[ca]]) [] = .ok ([(ca, [1])], ⟨0, [(ca, [1])], []⟩) ∧
    ([(ca, [2])] : Table String) ≠ [(ca, [1])] := by
  refine ⟨rfl, rfl, by decide⟩

/-- C3 counterexample: for the non-empty ballot set `[[]]` (one ballot that
ranks nothing), options `["Tom"]` and `winners = 1`,
`InstantRunOff.Calculate` terminates but raises `IndexError` (from
`zip(*[])[0]`) instead of returning a winner sequence. -/
theorem c3_counterexample :
    InstantRunOff.Calculate [tom] 1 [[]] = some (.error .indexError) := rfl

/-- C4: the plurality-winner claim fails on the code.  On the spec's example
(five ballots `[Tom, Dick, Harry]`), `Plurality.Calculate` returns `None`
(its body has no `return` statement), and `Plurality.CalculateContinue`
returns `[("Harry", [0,0,5])]`: the items are sorted in ASCENDING order of
count vector and `choices[0]` picks the front, i.e. the lowest-ranked choice,
as a `(choice, countVector)` pair — not `[Tom]`. -/
theorem c4_plurality_wrong_winner :
    Plurality.Calculate [tom, dick, harry]
      (Votes (List.replicate 5 [tom, dick, harry])) = .ok () ∧
    Plurality.CalculateContinue [tom, dick, harry] (CountSetup [])
      (Votes (List.replicate 5 [tom, dick, harry])) = .ok [(harry, [0, 0, 5])] :=
  ⟨rfl, rfl⟩

/-- C5: the IRV example.  For ballots
`[[T,D,H], [T,H,D], [D,H,T], [D,H,T], [H,D,T]]` over options `[T,D,H]` with
`winners = 1`, the engine eliminates Harry (count vector `[1,3,1]`), then Tom
(`[2,3,0]` against Dick's `[3,2,0]`), and returns `("Dick",)`. -/
theorem c5_irv_example :
    InstantRunOff.Calculate [tom, dick, harry] 1
      [[tom, dick, harry], [tom, harry, dick], [dick, harry, tom],
       [dick, harry, tom], [harry, dick, tom]] = some (.ok [dick]) := rfl

/-- C6 counterexample: the no-mutation claim fails on the code.  Counting the
single ballot `["A","B"]` with ignore-set `["A"]` leaves the caller-owned
ballot list as `[(0, ["B"])]`: `vote.remove("A")` mutated the stored ballot
in place. -/
theorem c6_counterexample :
    CountBallots [ca, cb] (Votes [[ca, cb]]) [ca] ≠ Votes [[ca, cb]] := by
  decide

/-- C9: `Positional` inherits `Question.Calculate`, whose body is
`raise NotImplemented()`; invoking it fails unconditionally (it never returns
an empty or otherwise incorrect result). -/
theorem c9_positional_unavailable (votes : List (Nat × List α)) :
    Positional.Calculate votes = .error .raisedNotImplemented := rfl

/-! ## Enumeration and loop-splitting lemmas -/

theorem enumVotes_length (j : Nat) (l : List (List α)) :
    (enumVotes j l).length = l.length := by
  induction l generalizing j with
  | nil => rfl
  | cons v vs ih => simp [enumVotes, ih]

theorem enumVotes_append (j : Nat) (a b : List (List α)) :
    enumVotes j (a ++ b) = enumVotes j a ++ enumVotes (j + a.length) b := by
  induction a generalizing j with
  | nil => simp [enumVotes]
  | cons v vs ih =>
    simp only [List.cons_append, enumVotes, List.length_cons, List.append_eq, ih]
    rw [show j + (vs.length + 1) = j + 1 + vs.length by omega]

theorem take_enumVotes (j k : Nat) (l : List (List α)) :
    (enumVotes j l).take k = enumVotes j (l.take k) := by
  induction l generalizing j k with
  | nil => simp [enumVotes]
  | cons v vs ih =>
    cases k with
    | zero => simp [enumVotes]
    | succ k => simp [enumVotes, ih]

theorem drop_enumVotes (j k : Nat) (l : List (List α)) :
    (enumVotes j l).drop k = enumVotes (j + k) (l.drop k) := by
  induction l generalizing j k with
  | nil => simp [enumVotes]
  | cons v vs ih =>
    cases k with
    | zero => simp [enumVotes]
    | succ k =>
      simp only [enumVotes, List.drop_succ_cons, ih]
      rw [show j + 1 + k = j + (k + 1) by omega]

theorem countLoopA_append_ok {n : Nat} {ig : List α} {A : List (Nat × List α)}
    {vid v : Int} {com t : Table α}
    (h : (countLoopA n ig vid com A).2 = .ok (t, v)) (B : List (Nat × List α)) :
    (countLoopA n ig vid com (A ++ B)).2 = (countLoopA n ig v t B).2 := by
  induction A generalizing vid com with
  | nil =>
    simp only [countLoopA, Except.ok.injEq, Prod.mk.injEq] at h
    rw [List.nil_append, h.1, h.2]
  | cons p A ih =>
    obtain ⟨id, w⟩ := p
    cases hc : countVoteAux n com (removeIgnored ig w) 0 with
    | error part => simp [countLoopA, hc] at h
    | ok t1 =>
      simp only [List.cons_append, countLoopA, hc] at h ⊢
      exact ih h

theorem countLoopA_append_err {n : Nat} {ig : List α} {A : List (Nat × List α)}
    {vid : Int} {com : Table α} {c : CrashInfo α}
    (h : (countLoopA n ig vid com A).2 = .error c) (B : List (Nat × List α)) :
    (countLoopA n ig vid com (A ++ B)).2 = .error c := by
  induction A generalizing vid com with
  | nil => simp [countLoopA] at h
  | cons p A ih =>
    obtain ⟨id, w⟩ := p
    cases hc : countVoteAux n com (removeIgnored ig w) 0 with
    | error part => simpa [countLoopA, hc] using h
    | ok t1 =>
      simp only [List.cons_append, countLoopA, hc] at h ⊢
      exact ih h

theorem countLoopA_enum_ok_voteid {n : Nat} {ig : List α} :
    ∀ (l : List (List α)) (j : Nat) (vid v : Int) (com t : Table α),
      (vid + 1).toNat = j → -1 ≤ vid →
      (countLoopA n ig vid com (enumVotes j l)).2 = .ok (t, v) →
      (v + 1).toNat = j + l.length ∧ -1 ≤ v := by
  intro l
  induction l with
  | nil =>
    intro j vid v com t hj hvid h
    simp only [enumVotes, countLoopA, Except.ok.injEq, Prod.mk.injEq] at h
    obtain ⟨h1, h2⟩ := h
    subst h2
    simpa using ⟨hj, hvid⟩
  | cons w ws ih =>
    intro j vid v com t hj hvid h
    cases hc : countVoteAux n com (removeIgnored ig w) 0 with
    | error part => simp [enumVotes, countLoopA, hc] at h
    | ok t1 =>
      simp only [enumVotes, countLoopA, hc] at h
      have := ih (j + 1) (j : Int) v t1 t (by omega) (by omega) h
      refine ⟨?_, this.2⟩
      simp only [List.length_cons]
      omega

/-- C2: resume equivalence.  For ballots identified `0, 1, 2, ...` (the
`enumerate` model of `Votes`), any ignore-set and any split point `k`, a full
`Count` pass over all ballots produces exactly the same outcome — same table,
same final state, and in the failure case the same crash state — as a
`Count` pass over `votes[:k]` followed by `CountContinue` resumed from the
resulting state: the resumed pass starts from the state's accumulated table
and scans exactly the ballots positioned strictly after the state's
last-processed identifier (`votes[offset+1:]`). -/
theorem c2_resume_equivalence (options : List α) (votes : List (List α))
    (toignore : List α) (k : Nat) :
    Count options (Votes votes) toignore =
      (Count options ((Votes votes).take k) toignore).bind
        (fun p => CountContinue options p.2 (Votes votes)) := by
  set n := options.length with hn
  set tk := (votes.take k).length with htk
  have htkle : tk ≤ votes.length := by
    rw [htk, List.length_take]; omega
  have htake : votes.take k = votes.take tk := by
    rcases le_total k votes.length with h | h
    · rw [htk, List.length_take, min_eq_left h]
    · rw [htk, List.length_take, min_eq_right h, List.take_length,
        List.take_of_length_le h]
  have hlen : (votes.take tk).length = tk := by
    rw [List.length_take, min_eq_left htkle]
  have hAB : Votes votes =
      enumVotes 0 (votes.take tk) ++ enumVotes tk (votes.drop tk) := by
    conv_lhs => rw [Votes, ← List.take_append_drop tk votes]
    rw [enumVotes_append, hlen, Nat.zero_add]
  have hAtake : (Votes votes).take k = enumVotes 0 (votes.take tk) := by
    rw [Votes, take_enumVotes, htake]
  set A := enumVotes 0 (votes.take tk) with hA
  set B := enumVotes tk (votes.drop tk) with hB
  cases hfst : (countLoopA n toignore (-1) [] A).2 with
  | error c =>
    have hfull : (countLoopA n toignore (-1) [] (Votes votes)).2 = .error c := by
      rw [hAB]; exact countLoopA_append_err hfst B
    simp only [Count, CountContinue, CountRun, CountSetup, hAtake, ← hn]
    rw [show ((-1 : Int) + 1).toNat = 0 by decide, List.drop_zero, List.drop_zero,
      hfull, hfst]
    rfl
  | ok p =>
    obtain ⟨t, v⟩ := p
    have hvt : (v + 1).toNat = tk ∧ -1 ≤ v := by
      have := countLoopA_enum_ok_voteid (votes.take tk) 0 (-1) v [] t (by decide)
        (by omega) hfst
      rw [hlen] at this
      exact ⟨by omega, this.2⟩
    have hfull : (countLoopA n toignore (-1) [] (Votes votes)).2 =
        (countLoopA n toignore v t B).2 := by
      rw [hAB]; exact countLoopA_append_ok hfst B
    have hAlen : A.length = tk := by rw [hA, enumVotes_length, hlen]
    have hdrop : (Votes votes).drop (v + 1).toNat = B := by
      rw [hvt.1, hAB, ← hAlen, List.drop_left]
    simp only [Count, CountContinue, CountRun, CountSetup, hAtake, ← hn]
    rw [show ((-1 : Int) + 1).toNat = 0 by decide, List.drop_zero, List.drop_zero,
      hfull, hfst]
    simp [Except.bind, hdrop]

/-! ## Ignore-set monotonicity -/

theorem calcRoundsF_head (nopts winners fuel : Nat) (votes : List (List α))
    (toignore : List α) :
    ∃ rest, calcRoundsF nopts winners fuel votes toignore = toignore :: rest := by
  cases fuel with
  | zero => exact ⟨[], rfl⟩
  | succ fuel =>
    simp only [calcRoundsF]
    cases hc : (countLoopA nopts toignore (-1) [] (enumVotes 0 votes)).2 with
    | error c => exact ⟨[], rfl⟩
    | ok p =>
      obtain ⟨sum, vid⟩ := p
      simp only []
      by_cases hlen : (sortByVec sum).length ≤ winners
      · simp only [if_pos hlen]; exact ⟨[], rfl⟩
      · simp only [if_neg hlen]
        cases hr : sortByVec sum with
        | nil => exact ⟨[], rfl⟩
        | cons q qs => exact ⟨_, rfl⟩

/-- C7: across the rounds of one `InstantRunOff.CalculateContinue` run, the
successive values of the ignore-set `alreadylost` form a chain in which each
non-terminal round appends exactly one choice (`alreadylost.append(...)` of
the front of the ascending ranking) to the previous round's list; in
particular each round's ignore-set extends the previous one, so no choice is
ever removed or re-admitted once it has entered the ignore-set. -/
theorem c7_ignore_set_monotone (nopts winners fuel : Nat) (votes : List (List α))
    (toignore : List α) :
    List.Chain' (fun a b => ∃ c, b = a ++ [c])
      (calcRoundsF nopts winners fuel votes toignore) := by
  induction fuel generalizing votes toignore with
  | zero => simp [calcRoundsF]
  | succ fuel ih =>
    simp only [calcRoundsF]
    cases hc : (countLoopA nopts toignore (-1) [] (enumVotes 0 votes)).2 with
    | error c => simp
    | ok p =>
      obtain ⟨sum, vid⟩ := p
      simp only []
      by_cases hlen : (sortByVec sum).length ≤ winners
      · simp [if_pos hlen]
      · simp only [if_neg hlen]
        cases hr : sortByVec sum with
        | nil => simp
        | cons q qs =>
          obtain ⟨rest, hrest⟩ := calcRoundsF_head nopts winners fuel
            (votes.map (removeIgnored toignore)) (toignore ++ [q.1])
          rw [List.chain'_cons']
          constructor
          · intro y hy
            rw [hrest] at hy
            simp only [List.head?_cons, Option.mem_def, Option.some.injEq] at hy
            exact ⟨q.1, hy.symm⟩
          · exact ih _ _

/-! ## Empty options list -/

theorem countLoopA_zero_opts (l : List (List α)) :
    ∀ (j : Nat) (vid : Int), (∃ v ∈ l, v ≠ []) →
      ∃ vid2, (countLoopA 0 [] vid [] (enumVotes j l)).2 = .error ⟨vid2, []⟩ := by
  induction l with
  | nil => intro j vid h; simp at h
  | cons w ws ih =>
    intro j vid h
    cases w with
    | nil =>
      have hws : ∃ v ∈ ws, v ≠ [] := by
        obtain ⟨v, hv, hne⟩ := h
        rcases List.mem_cons.mp hv with rfl | hv2
        · exact absurd rfl hne
        · exact ⟨v, hv2, hne⟩
      obtain ⟨vid2, hv2⟩ := ih (j + 1) (j : Int) hws
      exact ⟨vid2, by simpa [enumVotes, countLoopA, removeIgnored, countVoteAux] using hv2⟩
    | cons x xs =>
      refine ⟨vid, ?_⟩
      simp [enumVotes, countLoopA, removeIgnored, countVoteAux, tableMem,
        tableGet, tableSet]

/-- C8: with an empty options list, counting any ballot set that contains at
least one ballot ranking at least one choice fails (the increment
`sum[choice][i] += 1` hits an empty `[0]*0` count vector at the first counted
choice) instead of returning a table, and the committed state's table remains
at its pre-failure value: the empty table set up by `CountSetup` (ballots
before the failing one rank nothing and so commit no entries). -/
theorem c8_empty_options_fails (votes : List (List α))
    (h : ∃ v ∈ votes, v ≠ []) :
    ∃ vid, Count ([] : List α) (Votes votes) [] = .error ⟨vid, []⟩ := by
  obtain ⟨vid2, hv2⟩ := countLoopA_zero_opts votes 0 (-1) h
  refine ⟨vid2, ?_⟩
  simp only [Count, CountContinue, CountRun, CountSetup, Votes, List.length_nil]
  rw [show ((-1 : Int) + 1).toNat = 0 by decide, List.drop_zero, hv2]

/-- Witness for C8 at the ballot set `[["A"]]`. -/
theorem c8_empty_options_fails_witness :
    (∃ v ∈ [[ca]], v ≠ []) ∧
      ∃ vid, Count ([] : List String) (Votes [[ca]]) [] = .error ⟨vid, []⟩ :=
  ⟨by decide, c8_empty_options_fails [[ca]] (by decide)⟩

/-! ## Ballot mutation -/

theorem countLoopA_fst_ok {n : Nat} {ig : List α} {l : List (Nat × List α)}
    {vid : Int} {com : Table α} {r : Table α × Int}
    (h : (countLoopA n ig vid com l).2 = .ok r) :
    (countLoopA n ig vid com l).1 = l.map (fun p => (p.1, removeIgnored ig p.2)) := by
  induction l generalizing vid com with
  | nil => rfl
  | cons p l ih =>
    obtain ⟨id, w⟩ := p
    cases hc : countVoteAux n com (removeIgnored ig w) 0 with
    | error part => simp [countLoopA, hc] at h
    | ok t1 =>
      simp only [countLoopA, hc] at h ⊢
      simp [ih h]

theorem countLoopA_fst_no_ignore {n : Nat} (l : List (Nat × List α))
    (vid : Int) (com : Table α) :
    (countLoopA n [] vid com l).1 = l := by
  induction l generalizing vid com with
  | nil => rfl
  | cons p l ih =>
    obtain ⟨id, w⟩ := p
    have hw : removeIgnored ([] : List α) w = w := rfl
    simp only [countLoopA, hw]
    cases hc : countVoteAux n com w 0 with
    | error part => simp [hc]
    | ok t1 => simp [hc, ih]

/-- C6 amended: the engine does mutate the caller-owned ballots.  After a
`Count` pass that scans every ballot successfully, each stored ballot equals
its original value with the ignored choices removed in place (one occurrence
per ignore-set entry, exactly the `vote.remove` loop); consequently the
stored ballots are unchanged when the ignore-set is empty, but an ignored
choice present in a ballot is permanently removed from the caller's list. -/
theorem c6_ballots_mutated_in_place (options : List α) (votes : List (Nat × List α))
    (toignore : List α) (r : Table α × Int)
    (h : (CountRun options (CountSetup toignore) votes).2 = .ok r) :
    CountBallots options votes toignore =
      votes.map (fun p => (p.1, removeIgnored toignore p.2)) ∧
    CountBallots options votes [] = votes := by
  constructor
  · have := countLoopA_fst_ok h
    simpa [CountBallots, CountRun, CountSetup] using this
  · simp only [CountBallots, CountRun, CountSetup]
    exact countLoopA_fst_no_ignore _ _ _

/-- Witness for the amended C6 at ballots `[["A","B"]]` with ignore-set
`["A"]`: the pass succeeds and the stored ballot comes back as `["B"]`. -/
theorem c6_ballots_mutated_in_place_witness :
    (CountRun [ca, cb] (CountSetup [ca]) (Votes [[ca, cb]])).2 =
        .ok ([(cb, [1, 0])], 0) ∧
      CountBallots [ca, cb] (Votes [[ca, cb]]) [ca] =
        (Votes [[ca, cb]]).map (fun p => (p.1, removeIgnored [ca] p.2)) ∧
      CountBallots [ca, cb] (Votes [[ca, cb]]) [] = Votes [[ca, cb]] :=
  ⟨rfl, c6_ballots_mutated_in_place [ca, cb] (Votes [[ca, cb]]) [ca] ([(cb, [1, 0])], 0) rfl⟩

/-! ## Table lemmas -/

/-- The keys of a table, in order. -/
def tableKeys (t : Table α) : List α := t.map Prod.fst

theorem tableMem_iff_keys (t : Table α) (c : α) :
    tableMem t c = true ↔ c ∈ tableKeys t := by
  induction t with
  | nil => simp [tableMem, tableKeys]
  | cons p ps ih =>
    simp only [tableMem, List.any_cons, Bool.or_eq_true, decide_eq_true_eq,
      tableKeys, List.map_cons, List.mem_cons] at ih ⊢
    constructor
    · rintro (h | h)
      · exact Or.inl h.symm
      · exact Or.inr (ih.mp h)
    · rintro (h | h)
      · exact Or.inl h.symm
      · exact Or.inr (ih.mpr h)

theorem tableMem_tableSet_self (t : Table α) (c : α) (v : List Nat) :
    tableMem (tableSet t c v) c = true := by
  induction t with
  | nil => simp [tableSet, tableMem]
  | cons p ps ih =>
    by_cases hp : p.1 = c
    · simp [tableSet, hp, tableMem]
    · simp only [tableSet, if_neg hp, tableMem, List.any_cons, Bool.or_eq_true]
      exact Or.inr ih

theorem tableKeys_tableSet_of_mem {t : Table α} {c : α} (v : List Nat)
    (h : tableMem t c = true) :
    tableKeys (tableSet t c v) = tableKeys t := by
  induction t with
  | nil => simp [tableMem] at h
  | cons p ps ih =>
    by_cases hp : p.1 = c
    · simp [tableSet, hp, tableKeys]
    · simp only [tableMem, List.any_cons, Bool.or_eq_true, decide_eq_true_eq] at h
      rcases h with h | h
      · exact absurd h hp
      · simp [tableSet, hp, tableKeys] at ih ⊢
        exact ih h

theorem tableKeys_tableSet_of_not_mem {t : Table α} {c : α} (v : List Nat)
    (h : tableMem t c = false) :
    tableKeys (tableSet t c v) = tableKeys t ++ [c] := by
  induction t with
  | nil => simp [tableSet, tableKeys]
  | cons p ps ih =>
    simp only [tableMem, List.any_cons, Bool.or_eq_false_iff] at h
    have hp : ¬ p.1 = c := by simpa using h.1
    simp only [tableSet, if_neg hp, tableKeys, List.map_cons, List.cons_append,
      List.cons.injEq, true_and]
    exact ih h.2

theorem tableGet_mem {t : Table α} {c : α} {vec : List Nat}
    (h : tableGet t c = some vec) : (c, vec) ∈ t := by
  induction t with
  | nil => simp [tableGet] at h
  | cons p ps ih =>
    by_cases hp : p.1 = c
    · rw [tableGet, List.find?_cons_of_pos _ (by simpa using hp)] at h
      simp only [Option.map_some'] at h
      rw [Option.some.injEq] at h
      have hpq : p = (c, vec) := Prod.ext hp h
      rw [← hpq]
      exact List.mem_cons_self _ _
    · rw [tableGet, List.find?_cons_of_neg _ (by simpa using hp)] at h
      exact List.mem_cons_of_mem _ (ih h)

theorem tableGet_isSome_of_mem {t : Table α} {c : α} (h : tableMem t c = true) :
    ∃ vec, tableGet t c = some vec := by
  induction t with
  | nil => simp [tableMem] at h
  | cons p ps ih =>
    by_cases hp : p.1 = c
    · refine ⟨p.2, ?_⟩
      rw [tableGet, List.find?_cons_of_pos _ (by simpa using hp)]
      rfl
    · simp only [tableMem, List.any_cons, Bool.or_eq_true, decide_eq_true_eq] at h
      rcases h with h | h
      · exact absurd h hp
      · obtain ⟨vec, hvec⟩ := ih h
        refine ⟨vec, ?_⟩
        rw [tableGet, List.find?_cons_of_neg _ (by simpa using hp)]
        exact hvec

theorem mem_tableSet {t : Table α} {c : α} {v : List Nat} {q : α × List Nat}
    (h : q ∈ tableSet t c v) : q = (c, v) ∨ q ∈ t := by
  induction t with
  | nil => simp [tableSet] at h; exact Or.inl h
  | cons p ps ih =>
    by_cases hp : p.1 = c
    · simp only [tableSet, if_pos hp] at h
      rcases List.mem_cons.mp h with h | h
      · exact Or.inl h
      · exact Or.inr (List.mem_cons_of_mem _ h)
    · simp only [tableSet, if_neg hp] at h
      rcases List.mem_cons.mp h with h | h
      · exact Or.inr (h ▸ List.mem_cons_self _ _)
      · rcases ih h with h | h
        · exact Or.inl h
        · exact Or.inr (List.mem_cons_of_mem _ h)

theorem mem_tableSet_of_nodup {t : Table α} {c : α} {v : List Nat}
    {q : α × List Nat} (hnd : (tableKeys t).Nodup) (h : q ∈ tableSet t c v) :
    q = (c, v) ∨ (q ∈ t ∧ q.1 ≠ c) := by
  induction t with
  | nil => simp [tableSet] at h; exact Or.inl h
  | cons p ps ih =>
    simp only [tableKeys, List.map_cons, List.nodup_cons] at hnd
    by_cases hp : p.1 = c
    · simp only [tableSet, if_pos hp] at h
      rcases List.mem_cons.mp h with h | h
      · exact Or.inl h
      · refine Or.inr ⟨List.mem_cons_of_mem _ h, fun hq => ?_⟩
        apply hnd.1
        rw [hp, ← hq]
        exact List.mem_map_of_mem Prod.fst h
    · simp only [tableSet, if_neg hp] at h
      rcases List.mem_cons.mp h with h | h
      · exact Or.inr ⟨h ▸ List.mem_cons_self _ _, h ▸ hp⟩
      · rcases ih hnd.2 h with h | h
        · exact Or.inl h
        · exact Or.inr ⟨List.mem_cons_of_mem _ h.1, h.2⟩

theorem sum_set_getD_succ : ∀ (l : List Nat) (i : Nat), i < l.length →
    (l.set i (l.getD i 0 + 1)).sum = l.sum + 1 := by
  intro l
  induction l with
  | nil => intro i h; simp at h
  | cons x xs ih =>
    intro i h
    cases i with
    | zero =>
      have hset : (x :: xs).set 0 ((x :: xs).getD 0 0 + 1) = (x + 1) :: xs := rfl
      rw [hset, List.sum_cons, List.sum_cons]
      omega
    | succ i =>
      have h2 : i < xs.length := by simpa using h
      have hset : (x :: xs).set (i + 1) ((x :: xs).getD (i + 1) 0 + 1)
          = x :: xs.set i (xs.getD i 0 + 1) := rfl
      rw [hset, List.sum_cons, List.sum_cons, ih i h2]
      omega

/-! ## Per-ballot counting lemmas -/

theorem countVoteAux_ok_of_fit {n : Nat} :
    ∀ (w : List α) (t : Table α) (i : Nat),
      (∀ p ∈ t, p.2.length = n) → i + w.length ≤ n →
      ∃ t2, countVoteAux n t w i = .ok t2 ∧ (∀ p ∈ t2, p.2.length = n) := by
  intro w
  induction w with
  | nil => intro t i hlen hfit; exact ⟨t, rfl, hlen⟩
  | cons x rest ih =>
    intro t i hlen hfit
    set t1 := if tableMem t x then t else tableSet t x (List.replicate n 0) with ht1
    have hlen1 : ∀ p ∈ t1, p.2.length = n := by
      intro p hp
      rw [ht1] at hp
      by_cases hm : tableMem t x
      · rw [if_pos hm] at hp; exact hlen p hp
      · rw [if_neg hm] at hp
        rcases mem_tableSet hp with h | h
        · rw [h]; simp
        · exact hlen p h
    have hmem1 : tableMem t1 x = true := by
      rw [ht1]
      by_cases hm : tableMem t x
      · rwa [if_pos hm]
      · rw [if_neg hm]; exact tableMem_tableSet_self t x _
    obtain ⟨vec, hvec⟩ := tableGet_isSome_of_mem hmem1
    have hvlen : vec.length = n := hlen1 _ (tableGet_mem hvec)
    have hi : i < vec.length := by
      rw [hvlen]
      simp only [List.length_cons] at hfit
      omega
    obtain ⟨t2, ht2, hlen2⟩ := ih (tableSet t1 x (vec.set i (vec.getD i 0 + 1)))
      (i + 1)
      (by
        intro p hp
        rcases mem_tableSet hp with h | h
        · rw [h]; simp [hvlen]
        · exact hlen1 p h)
      (by simp only [List.length_cons] at hfit; omega)
    refine ⟨t2, ?_, hlen2⟩
    rw [countVoteAux]
    simp only [← ht1, hvec, Option.getD_some]
    rw [if_pos hi]
    exact ht2

theorem countVoteAux_ok_inv {n : Nat} :
    ∀ (w : List α) (t t2 : Table α) (i : Nat),
      countVoteAux n t w i = .ok t2 →
      (tableKeys t).Nodup → (∀ p ∈ t, p.2.sum ≠ 0) →
      (tableKeys t2).Nodup ∧ (∀ p ∈ t2, p.2.sum ≠ 0) ∧
        ∀ c, tableMem t2 c = true ↔ (tableMem t c = true ∨ c ∈ w) := by
  intro w
  induction w with
  | nil =>
    intro t t2 i h hnd hpos
    simp only [countVoteAux, Except.ok.injEq] at h
    subst h
    exact ⟨hnd, hpos, fun c => by simp⟩
  | cons x rest ih =>
    intro t t2 i h hnd hpos
    set t1 := if tableMem t x then t else tableSet t x (List.replicate n 0) with ht1
    have hnd1 : (tableKeys t1).Nodup := by
      rw [ht1]
      by_cases hm : tableMem t x
      · rwa [if_pos hm]
      · have hmf : tableMem t x = false := by simpa using hm
        rw [if_neg hm, tableKeys_tableSet_of_not_mem _ hmf]
        refine List.Nodup.append hnd (List.nodup_singleton x) ?_
        intro a ha hb
        rw [List.mem_singleton] at hb
        subst hb
        rw [← tableMem_iff_keys] at ha
        rw [hmf] at ha
        exact Bool.false_ne_true ha
    have hkeys1 : ∀ c, tableMem t1 c = true ↔ (tableMem t c = true ∨ c = x) := by
      intro c
      rw [ht1]
      by_cases hm : tableMem t x
      · rw [if_pos hm]
        constructor
        · exact Or.inl
        · rintro (h2 | rfl)
          · exact h2
          · exact hm
      · have hmf : tableMem t x = false := by simpa using hm
        rw [if_neg hm, tableMem_iff_keys, tableKeys_tableSet_of_not_mem _ hmf]
        rw [List.mem_append, List.mem_singleton, ← tableMem_iff_keys]
    have hmem1 : tableMem t1 x = true := by
      rw [ht1]
      by_cases hm : tableMem t x
      · rwa [if_pos hm]
      · rw [if_neg hm]; exact tableMem_tableSet_self t x _
    obtain ⟨vec, hvec⟩ := tableGet_isSome_of_mem hmem1
    rw [countVoteAux] at h
    simp only [← ht1, hvec, Option.getD_some] at h
    by_cases hi : i < vec.length
    · rw [if_pos hi] at h
      set t1b := tableSet t1 x (vec.set i (vec.getD i 0 + 1)) with ht1b
      have hndb : (tableKeys t1b).Nodup := by
        rw [ht1b, tableKeys_tableSet_of_mem _ hmem1]; exact hnd1
      have hposb : ∀ p ∈ t1b, p.2.sum ≠ 0 := by
        intro p hp
        rcases mem_tableSet_of_nodup hnd1 hp with hq | hq
        · rw [hq]
          simp only [sum_set_getD_succ vec i hi]
          omega
        · have hpt : p ∈ t := by
            rw [ht1] at hq
            by_cases hm : tableMem t x
            · rw [if_pos hm] at hq
              exact hq.1
            · rw [if_neg hm] at hq
              rcases mem_tableSet hq.1 with hh | hh
              · exact absurd (by rw [hh]) hq.2
              · exact hh
          exact hpos p hpt
      obtain ⟨hnd2, hpos2, hkeys2⟩ := ih t1b t2 (i + 1) h hndb hposb
      refine ⟨hnd2, hpos2, fun c => ?_⟩
      rw [hkeys2 c]
      have hkb : tableMem t1b c = true ↔ tableMem t1 c = true := by
        rw [tableMem_iff_keys, tableMem_iff_keys, ht1b,
          tableKeys_tableSet_of_mem _ hmem1]
      rw [hkb, hkeys1]
      simp only [List.mem_cons]
      tauto
    · rw [if_neg hi] at h
      exact absurd h (by simp)

/-! ## Loop-level counting lemmas -/

theorem countLoopA_ok_of_fit {n : Nat} {ig : List α} :
    ∀ (l : List (Nat × List α)) (vid : Int) (com : Table α),
      (∀ p ∈ com, p.2.length = n) →
      (∀ q ∈ l, (removeIgnored ig q.2).length ≤ n) →
      ∃ t v, (countLoopA n ig vid com l).2 = .ok (t, v) ∧
        (∀ p ∈ t, p.2.length = n) := by
  intro l
  induction l with
  | nil => intro vid com hlen hfit; exact ⟨com, vid, rfl, hlen⟩
  | cons q l ih =>
    intro vid com hlen hfit
    obtain ⟨id, w⟩ := q
    obtain ⟨t1, ht1, hlen1⟩ := countVoteAux_ok_of_fit (removeIgnored ig w) com 0
      hlen (by simpa using hfit (id, w) (List.mem_cons_self _ _))
    obtain ⟨t, v, hok, hlen2⟩ := ih (id : Int) t1 hlen1
      (fun q hq => hfit q (List.mem_cons_of_mem _ hq))
    exact ⟨t, v, by simp [countLoopA, ht1, hok], hlen2⟩

theorem countLoopA_ok_inv {n : Nat} {ig : List α} :
    ∀ (l : List (Nat × List α)) (vid v : Int) (com t : Table α),
      (countLoopA n ig vid com l).2 = .ok (t, v) →
      (tableKeys com).Nodup → (∀ p ∈ com, p.2.sum ≠ 0) →
      (tableKeys t).Nodup ∧ (∀ p ∈ t, p.2.sum ≠ 0) ∧
        ∀ c, tableMem t c = true ↔
          (tableMem com c = true ∨ ∃ q ∈ l, c ∈ removeIgnored ig q.2) := by
  intro l
  induction l with
  | nil =>
    intro vid v com t h hnd hpos
    simp only [countLoopA, Except.ok.injEq, Prod.mk.injEq] at h
    obtain ⟨rfl, rfl⟩ := h
    exact ⟨hnd, hpos, fun c => by simp⟩
  | cons q l ih =>
    intro vid v com t h hnd hpos
    obtain ⟨id, w⟩ := q
    cases hc : countVoteAux n com (removeIgnored ig w) 0 with
    | error part => simp [countLoopA, hc] at h
    | ok t1 =>
      simp only [countLoopA, hc] at h
      obtain ⟨hnd1, hpos1, hkeys1⟩ := countVoteAux_ok_inv (removeIgnored ig w)
        com t1 0 hc hnd hpos
      obtain ⟨hnd2, hpos2, hkeys2⟩ := ih (id : Int) v t1 t h hnd1 hpos1
      refine ⟨hnd2, hpos2, fun c => ?_⟩
      rw [hkeys2 c]
      simp only [hkeys1 c, List.mem_cons]
      constructor
      · rintro ((h2 | h2) | ⟨q, hq, hq2⟩)
        · exact Or.inl h2
        · exact Or.inr ⟨(id, w), Or.inl rfl, h2⟩
        · exact Or.inr ⟨q, Or.inr hq, hq2⟩
      · rintro (h2 | ⟨q, hq | hq, hq2⟩)
        · exact Or.inl (Or.inl h2)
        · exact Or.inl (Or.inr (by rw [hq] at hq2; exact hq2))
        · exact Or.inr ⟨q, hq, hq2⟩

theorem exists_enumVotes_iff (j : Nat) (l : List (List α)) (P : List α → Prop) :
    (∃ q ∈ enumVotes j l, P q.2) ↔ ∃ v ∈ l, P v := by
  induction l generalizing j with
  | nil => simp [enumVotes]
  | cons w ws ih =>
    simp only [enumVotes, List.mem_cons]
    constructor
    · rintro ⟨q, rfl | hq, hP⟩
      · exact ⟨w, Or.inl rfl, hP⟩
      · obtain ⟨v, hv, hP2⟩ := (ih (j + 1)).mp ⟨q, hq, hP⟩
        exact ⟨v, Or.inr hv, hP2⟩
    · rintro ⟨v, rfl | hv, hP⟩
      · exact ⟨(j, v), Or.inl rfl, hP⟩
      · obtain ⟨q, hq, hP2⟩ := (ih (j + 1)).mpr ⟨v, hv, hP⟩
        exact ⟨q, Or.inr hq, hP2⟩

/-- C10: absent-choice convention.  After a successful full `Count` pass, the
returned table has an entry for a choice exactly when that choice appears at
some position of some ballot after removal of the ignored choices (keys are
created only by `sum[choice] = [0]*len(self.options)` at the moment the
choice is first counted); moreover every entry's count vector has been
incremented at least once, so no choice is ever present with an all-zero
vector — a declared option that no counted ballot ranks is simply absent. -/
theorem c10_absent_choice_convention (options : List α) (votes : List (List α))
    (toignore : List α) (S : Table α) (st : CState α)
    (h : Count options (Votes votes) toignore = .ok (S, st)) :
    (∀ c, tableMem S c = true ↔ ∃ v ∈ votes, c ∈ removeIgnored toignore v) ∧
      ∀ c vec, tableGet S c = some vec → vec.sum ≠ 0 := by
  have hloop : (countLoopA options.length toignore (-1) []
      (enumVotes 0 votes)).2 = .ok (S, st.voteid) := by
    simp only [Count, CountContinue, CountRun, CountSetup, Votes] at h
    rw [show ((-1 : Int) + 1).toNat = 0 by decide, List.drop_zero] at h
    cases hc : (countLoopA options.length toignore (-1) [] (enumVotes 0 votes)).2 with
    | error c => rw [hc] at h; exact absurd h (by simp)
    | ok p =>
      obtain ⟨t, vid⟩ := p
      rw [hc] at h
      simp only [Except.ok.injEq, Prod.mk.injEq] at h
      obtain ⟨rfl, rfl⟩ := h
      exact hc ▸ rfl
  obtain ⟨hnd, hpos, hkeys⟩ := countLoopA_ok_inv (enumVotes 0 votes) (-1)
    st.voteid [] S hloop (by simp [tableKeys]) (by simp)
  constructor
  · intro c
    rw [hkeys c]
    simp only [tableMem, List.any_nil, Bool.false_eq_true, false_or]
    exact exists_enumVotes_iff 0 votes (fun v => c ∈ removeIgnored toignore v)
  · intro c vec hvec
    exact hpos (c, vec) (tableGet_mem hvec)

/-- Witness for C10 at options `["A"]`, ballots `[["A"]]`, empty ignore-set. -/
theorem c10_absent_choice_convention_witness :
    Count [ca] (Votes [[ca]]) [] = .ok ([(ca, [1])], ⟨0, [(ca, [1])], []⟩) ∧
      ((∀ c, tableMem [(ca, [1])] c = true ↔
          ∃ v ∈ [[ca]], c ∈ removeIgnored [] v) ∧
        ∀ c vec, tableGet [(ca, [1])] c = some vec → vec.sum ≠ 0) :=
  ⟨rfl, c10_absent_choice_convention [ca] [[ca]] [] [(ca, [1])]
    ⟨0, [(ca, [1])], []⟩ rfl⟩

/-! ## Removal lemmas -/

theorem removeIgnored_sublist : ∀ (ig : List α) (v : List α),
    List.Sublist (removeIgnored ig v) v := by
  intro ig
  induction ig with
  | nil => intro v; exact List.Sublist.refl v
  | cons i ig ih =>
    intro v
    have hstep : List.Sublist (if i ∈ v then v.erase i else v) v := by
      by_cases hm : i ∈ v
      · rw [if_pos hm]; exact List.erase_sublist i v
      · rw [if_neg hm]
    exact List.Sublist.trans (ih _) hstep

theorem mem_of_mem_removeIgnored {ig v : List α} {x : α}
    (h : x ∈ removeIgnored ig v) : x ∈ v :=
  (removeIgnored_sublist ig v).subset h

theorem removeIgnored_nodup {ig v : List α} (h : v.Nodup) :
    (removeIgnored ig v).Nodup :=
  (removeIgnored_sublist ig v).nodup h

theorem removeIgnored_length_le (ig v : List α) :
    (removeIgnored ig v).length ≤ v.length :=
  (removeIgnored_sublist ig v).length_le

theorem not_mem_removeIgnored {c : α} : ∀ (ig : List α) (v : List α),
    v.Nodup → c ∈ ig → c ∉ removeIgnored ig v := by
  intro ig
  induction ig with
  | nil => intro v _ h; simp at h
  | cons i ig ih =>
    intro v hnd hc
    have hstepnd : (if i ∈ v then v.erase i else v).Nodup := by
      by_cases hm : i ∈ v
      · rw [if_pos hm]; exact hnd.erase i
      · rwa [if_neg hm]
    rcases List.mem_cons.mp hc with rfl | hc2
    · have hnotstep : c ∉ (if c ∈ v then v.erase c else v) := by
        by_cases hm : c ∈ v
        · rw [if_pos hm]; exact hnd.not_mem_erase
        · rwa [if_neg hm]
      intro hmem
      exact hnotstep (mem_of_mem_removeIgnored hmem)
    · exact ih _ hstepnd hc2

theorem removeIgnored_append (a b v : List α) :
    removeIgnored (a ++ b) v = removeIgnored b (removeIgnored a v) := by
  simp [removeIgnored, List.foldl_append]

theorem removeIgnored_single (c : α) (v : List α) :
    removeIgnored [c] v = v.erase c := by
  simp only [removeIgnored, List.foldl_cons, List.foldl_nil]
  by_cases hm : c ∈ v
  · rw [if_pos hm]
  · rw [if_neg hm, List.erase_of_not_mem hm]

theorem removeIgnored_of_disjoint : ∀ (ig : List α) (v : List α),
    (∀ i ∈ ig, i ∉ v) → removeIgnored ig v = v := by
  intro ig
  induction ig with
  | nil => intro v _; rfl
  | cons i ig ih =>
    intro v hdisj
    have hi : i ∉ v := hdisj i (List.mem_cons_self _ _)
    have hstep : (if i ∈ v then v.erase i else v) = v := if_neg hi
    show removeIgnored ig (if i ∈ v then v.erase i else v) = v
    rw [hstep]
    exact ih v (fun j hj => hdisj j (List.mem_cons_of_mem _ hj))

theorem removeIgnored_snoc {ig : List α} {v : List α} (c : α) (hnd : v.Nodup) :
    removeIgnored (ig ++ [c]) (removeIgnored ig v)
      = (removeIgnored ig v).erase c := by
  rw [removeIgnored_append, removeIgnored_of_disjoint ig (removeIgnored ig v)
    (fun i hi => not_mem_removeIgnored ig v hnd hi), removeIgnored_single]

/-! ## Sorting lemmas -/

theorem insertRanked_perm (p : α × List Nat) :
    ∀ (l : List (α × List Nat)), (insertRanked p l).Perm (p :: l) := by
  intro l
  induction l with
  | nil => exact List.Perm.refl _
  | cons q qs ih =>
    by_cases hlt : pyListLt p.2 q.2
    · rw [insertRanked, if_pos hlt]
    · rw [insertRanked, if_neg hlt]
      exact List.Perm.trans (List.Perm.cons q ih) (List.Perm.swap p q qs)

theorem foldl_insertRanked_perm :
    ∀ (l acc : List (α × List Nat)),
      (l.foldl (fun a p => insertRanked p a) acc).Perm (acc ++ l) := by
  intro l
  induction l with
  | nil => intro acc; simp
  | cons q l ih =>
    intro acc
    have h1 := ih (insertRanked q acc)
    have h2 : (insertRanked q acc ++ l).Perm ((q :: acc) ++ l) :=
      (insertRanked_perm q acc).append_right l
    have h3 : ((q :: acc) ++ l).Perm (acc ++ q :: l) := by
      simp only [List.cons_append]
      exact (List.perm_middle).symm
    show (l.foldl (fun a p => insertRanked p a) (insertRanked q acc)).Perm _
    exact (h1.trans h2).trans h3

theorem sortByVec_perm (t : Table α) : (sortByVec t).Perm t := by
  have := foldl_insertRanked_perm t []
  simpa [sortByVec] using this

theorem sortByVec_length (t : Table α) : (sortByVec t).length = t.length :=
  (sortByVec_perm t).length_eq

theorem mem_of_mem_sortByVec {t : Table α} {q : α × List Nat}
    (h : q ∈ sortByVec t) : q ∈ t :=
  (sortByVec_perm t).mem_iff.mp h

/-! ## Size lemmas -/

theorem totalLen_map_erase_le (S : List (List α)) (c : α) :
    totalLen (S.map (fun v => v.erase c)) ≤ totalLen S := by
  induction S with
  | nil => simp [totalLen]
  | cons v S ih =>
    simp only [totalLen, List.map_cons, List.sum_cons] at ih ⊢
    have := (List.erase_sublist c v).length_le
    omega

theorem totalLen_map_erase_lt (S : List (List α)) (c : α)
    (h : ∃ v ∈ S, c ∈ v) :
    totalLen (S.map (fun v => v.erase c)) < totalLen S := by
  induction S with
  | nil => simp at h
  | cons v S ih =>
    simp only [totalLen, List.map_cons, List.sum_cons] at ih ⊢
    obtain ⟨w, hw, hc⟩ := h
    rcases List.mem_cons.mp hw with rfl | hw2
    · have h1 : (w.erase c).length = w.length - 1 := List.length_erase_of_mem hc
      have h2 : 1 ≤ w.length := List.length_pos.mpr (List.ne_nil_of_mem hc)
      have h3 := totalLen_map_erase_le S c
      simp only [totalLen] at h3
      omega
    · have := ih ⟨w, hw2, hc⟩
      have h1 := (List.erase_sublist c v).length_le
      omega

theorem exists_mem_ne {l : List α} (hnd : l.Nodup) (hlen : 2 ≤ l.length)
    (c : α) : ∃ d ∈ l, d ≠ c := by
  cases l with
  | nil => simp at hlen
  | cons a l =>
    cases l with
    | nil => simp at hlen
    | cons b l =>
      by_cases ha : a = c
      · subst ha
        refine ⟨b, List.mem_cons_of_mem _ (List.mem_cons_self _ _), fun hb => ?_⟩
        subst hb
        simp at hnd
      · exact ⟨a, List.mem_cons_self _ _, ha⟩

theorem join_map_erase_toFinset (S : List (List α)) (c : α)
    (hnd : ∀ v ∈ S, v.Nodup) :
    (S.map (fun v => v.erase c)).flatten.toFinset = S.flatten.toFinset.erase c := by
  ext d
  simp only [List.mem_toFinset, Finset.mem_erase, List.mem_flatten, List.mem_map]
  constructor
  · rintro ⟨w, ⟨v, hv, rfl⟩, hd⟩
    have hme := ((hnd v hv).mem_erase_iff).mp hd
    exact ⟨hme.1, v, hv, hme.2⟩
  · rintro ⟨hdc, v, hv, hd⟩
    exact ⟨v.erase c, ⟨v, hv, rfl⟩, (List.mem_erase_of_ne hdc).mpr hd⟩

theorem table_length_eq_card {t : Table α} {S : List (List α)}
    (hnd : (tableKeys t).Nodup)
    (hiff : ∀ c, c ∈ tableKeys t ↔ c ∈ S.flatten) :
    t.length = S.flatten.toFinset.card := by
  have h1 : t.length = (tableKeys t).length := (List.length_map _ _).symm
  have h2 : (tableKeys t).toFinset = S.flatten.toFinset := by
    ext d
    simp only [List.mem_toFinset]
    exact hiff d
  rw [h1, ← List.toFinset_card_of_nodup hnd, h2]

theorem count_table_keys {n : Nat} {ig : List α} {votes : List (List α)}
    {t : Table α} {v : Int}
    (h : (countLoopA n ig (-1) [] (enumVotes 0 votes)).2 = .ok (t, v)) :
    (tableKeys t).Nodup ∧ (∀ p ∈ t, p.2.sum ≠ 0) ∧
      ∀ c, c ∈ tableKeys t ↔ c ∈ ((votes.map (removeIgnored ig)).flatten) := by
  obtain ⟨hnd, hpos, hkeys⟩ := countLoopA_ok_inv (enumVotes 0 votes) (-1) v [] t
    h (by simp [tableKeys]) (by simp)
  refine ⟨hnd, hpos, fun c => ?_⟩
  rw [← tableMem_iff_keys, hkeys c]
  simp only [tableMem, List.any_nil, Bool.false_eq_true, false_or]
  rw [exists_enumVotes_iff 0 votes (fun w => c ∈ removeIgnored ig w)]
  simp only [List.mem_flatten, List.mem_map]
  constructor
  · rintro ⟨w, hw, hc⟩
    exact ⟨removeIgnored ig w, ⟨w, hw, rfl⟩, hc⟩
  · rintro ⟨w, ⟨u, hu, rfl⟩, hc⟩
    exact ⟨u, hu, hc⟩

theorem snd_mem_of_mem_enumVotes :
    ∀ {j : Nat} {l : List (List α)} {q : Nat × List α},
      q ∈ enumVotes j l → q.2 ∈ l := by
  intro j l
  induction l generalizing j with
  | nil => intro q h; simp [enumVotes] at h
  | cons w ws ih =>
    intro q h
    rcases List.mem_cons.mp h with rfl | h2
    · exact List.mem_cons_self _ _
    · exact List.mem_cons_of_mem _ (ih h2)

theorem calcLoopF_step {n winners fuel : Nat} {votes : List (List α)}
    {ig : List α} {t : Table α} {v : Int}
    (hok : (countLoopA n ig (-1) [] (enumVotes 0 votes)).2 = .ok (t, v)) :
    calcLoopF n winners (fuel + 1) votes ig =
      if (sortByVec t).length ≤ winners then
        match sortByVec t with
        | [] => some (.error .indexError)
        | _ :: _ => some (.ok (((sortByVec t).map Prod.fst).reverse))
      else
        match sortByVec t with
        | [] => some (.error .indexError)
        | c :: _ =>
          calcLoopF n winners fuel (votes.map (removeIgnored ig)) (ig ++ [c.1]) := by
  rw [calcLoopF, hok]

theorem calcLoopF_ok {n winners : Nat} (hw : 1 ≤ winners) :
    ∀ (fuel : Nat) (votes : List (List α)) (ig : List α),
      totalLen (votes.map (removeIgnored ig)) < fuel →
      (∀ v ∈ votes, v.Nodup) →
      (∀ v ∈ votes, (removeIgnored ig v).length ≤ n) →
      (votes.map (removeIgnored ig)).flatten ≠ [] →
      ∃ res, calcLoopF n winners fuel votes ig = some (.ok res) ∧
        res.length =
          min ((votes.map (removeIgnored ig)).flatten.toFinset.card) winners := by
  intro fuel
  induction fuel with
  | zero => intro votes ig hfuel _ _ _; omega
  | succ fuel ih =>
    intro votes ig hfuel hnd hfit hne
    obtain ⟨t, v, hok, hlen⟩ := @countLoopA_ok_of_fit α _ n ig
      (enumVotes 0 votes) (-1) [] (by simp)
      (fun q hq => hfit q.2 (snd_mem_of_mem_enumVotes hq))
    obtain ⟨hkeysnd, hpos, hkeysiff⟩ := count_table_keys hok
    set S := votes.map (removeIgnored ig) with hS
    have hlen_t : t.length = S.flatten.toFinset.card :=
      table_length_eq_card hkeysnd hkeysiff
    have hK1 : 1 ≤ S.flatten.toFinset.card := by
      obtain ⟨x, hx⟩ := List.exists_mem_of_ne_nil _ hne
      exact Finset.card_pos.mpr ⟨x, List.mem_toFinset.mpr hx⟩
    have hrlen : (sortByVec t).length = t.length := sortByVec_length t
    rw [calcLoopF_step hok]
    by_cases hle : (sortByVec t).length ≤ winners
    · rw [if_pos hle]
      have hne2 : sortByVec t ≠ [] := by
        intro h0
        rw [h0] at hrlen
        simp only [List.length_nil] at hrlen
        omega
      cases hr : sortByVec t with
      | nil => exact absurd hr hne2
      | cons q qs =>
        refine ⟨((q :: qs).map Prod.fst).reverse, rfl, ?_⟩
        have hqlen : (q :: qs).length = t.length := by rw [← hr]; exact hrlen
        rw [List.length_reverse, List.length_map, hqlen, hlen_t]
        have hcard : S.flatten.toFinset.card ≤ winners := by
          rw [hrlen] at hle
          omega
        omega
    · rw [if_neg hle]
      cases hr : sortByVec t with
      | nil =>
        rw [hr] at hle
        simp at hle
      | cons cpair rest =>
        have hKgt : winners < S.flatten.toFinset.card := by
          rw [hrlen, hlen_t] at hle
          omega
        have hcmem : cpair ∈ t :=
          mem_of_mem_sortByVec (hr ▸ List.mem_cons_self cpair rest)
        have hckey : cpair.1 ∈ tableKeys t := List.mem_map_of_mem Prod.fst hcmem
        have hcflat : cpair.1 ∈ S.flatten := (hkeysiff _).mp hckey
        have hSnd : ∀ w ∈ S, w.Nodup := by
          intro w hw
          rw [hS] at hw
          obtain ⟨v0, hv0, rfl⟩ := List.mem_map.mp hw
          exact removeIgnored_nodup (hnd v0 hv0)
        have hSfit : ∀ w ∈ S, w.length ≤ n := by
          intro w hw
          rw [hS] at hw
          obtain ⟨v0, hv0, rfl⟩ := List.mem_map.mp hw
          exact hfit v0 hv0
        have hstep : S.map (removeIgnored (ig ++ [cpair.1]))
            = S.map (fun w => w.erase cpair.1) := by
          apply List.map_congr_left
          intro w hw
          rw [hS] at hw
          obtain ⟨v0, hv0, rfl⟩ := List.mem_map.mp hw
          exact removeIgnored_snoc cpair.1 (hnd v0 hv0)
        have hfuel2 : totalLen (S.map (removeIgnored (ig ++ [cpair.1]))) < fuel := by
          rw [hstep]
          have h1 : totalLen (S.map (fun w => w.erase cpair.1)) < totalLen S := by
            apply totalLen_map_erase_lt
            exact List.mem_flatten.mp hcflat
          omega
        have hfit2 : ∀ w ∈ S, (removeIgnored (ig ++ [cpair.1]) w).length ≤ n := by
          intro w hw
          calc (removeIgnored (ig ++ [cpair.1]) w).length
              ≤ w.length := removeIgnored_length_le _ _
            _ ≤ n := hSfit w hw
        have hne2 : (S.map (removeIgnored (ig ++ [cpair.1]))).flatten ≠ [] := by
          rw [hstep]
          have h2le : 2 ≤ (tableKeys t).length := by
            rw [tableKeys, List.length_map]
            omega
          obtain ⟨d, hd, hdc⟩ := exists_mem_ne hkeysnd h2le cpair.1
          have hdflat : d ∈ S.flatten := (hkeysiff _).mp hd
          obtain ⟨w, hw, hdw⟩ := List.mem_flatten.mp hdflat
          have : d ∈ (S.map (fun w => w.erase cpair.1)).flatten := by
            rw [List.mem_flatten]
            exact ⟨w.erase cpair.1, List.mem_map_of_mem _ hw,
              (List.mem_erase_of_ne hdc).mpr hdw⟩
          exact List.ne_nil_of_mem this
        obtain ⟨res, hres, hreslen⟩ := ih S (ig ++ [cpair.1]) hfuel2 hSnd hfit2 hne2
        refine ⟨res, hres, ?_⟩
        rw [hreslen, hstep, join_map_erase_toFinset S cpair.1 hSnd,
          Finset.card_erase_of_mem (List.mem_toFinset.mpr hcflat)]
        omega

/-- C3 amended: termination of the IRV loop is unconditional — the fuel
`totalLen votes + 1` used by `InstantRunOff.Calculate` always suffices,
because the ignore-set grows by one counted choice per non-terminal round
and that choice's occurrences are then removed from the (finite) ballots.
For the returned value, the claim needs the well-formedness the source
assumes: at least one ballot ranks at least one choice (otherwise
`zip(*[])[0]` raises `IndexError`), no ballot repeats a choice, and no
ballot ranks more choices than there are options (otherwise the count
raises `IndexError`).  Under those hypotheses, with `winners ≥ 1`,
`Calculate` returns a winner tuple of exactly `min(#distinct ranked choices,
winners)` choices: exactly `winners`, or fewer when the options are
exhausted first. -/
theorem c3_irv_terminates (options : List α) (winners : Nat)
    (votes : List (List α)) (hw : 1 ≤ winners)
    (hnd : ∀ v ∈ votes, v.Nodup)
    (hfit : ∀ v ∈ votes, v.length ≤ options.length)
    (hne : ∃ v ∈ votes, v ≠ []) :
    ∃ res, InstantRunOff.Calculate options winners votes = some (.ok res) ∧
      res.length = min (votes.flatten.toFinset.card) winners := by
  have hid : votes.map (removeIgnored ([] : List α)) = votes := by
    rw [show (removeIgnored ([] : List α)) = id from funext (fun v => rfl),
      List.map_id]
  obtain ⟨res, hres, hlen⟩ := @calcLoopF_ok α _ options.length winners hw
    (totalLen votes + 1) votes []
    (by rw [hid]; omega)
    hnd
    (fun v hv => by
      have : removeIgnored ([] : List α) v = v := rfl
      rw [this]; exact hfit v hv)
    (by
      rw [hid]
      obtain ⟨v, hv, hvne⟩ := hne
      obtain ⟨x, hx⟩ := List.exists_mem_of_ne_nil v hvne
      exact List.ne_nil_of_mem (List.mem_flatten.mpr ⟨v, hv, hx⟩))
  rw [hid] at hlen
  exact ⟨res, hres, hlen⟩

/-- Witness for C3 at options `[Tom, Dick]`, `winners = 1`, ballots
`[[Tom], [Dick], [Tom]]`. -/
theorem c3_irv_terminates_witness :
    (1 ≤ 1 ∧ (∀ v ∈ [[tom], [dick], [tom]], v.Nodup) ∧
      (∀ v ∈ [[tom], [dick], [tom]], v.length ≤ ([tom, dick] : List String).length) ∧
      (∃ v ∈ [[tom], [dick], [tom]], v ≠ [])) ∧
    ∃ res, InstantRunOff.Calculate [tom, dick] 1 [[tom], [dick], [tom]]
        = some (.ok res) ∧
      res.length = min ([[tom], [dick], [tom]].flatten.toFinset.card) 1 :=
  ⟨⟨le_refl 1, by decide, by decide, by decide⟩,
    c3_irv_terminates [tom, dick] 1 [[tom], [dick], [tom]] (le_refl 1)
      (by decide) (by decide) (by decide)⟩

end VoteForIt
